import Mathlib

/-!
Verification of the rolling-counter specification against the repository's
two scripts. The scripts (`counting_profiler.py`, `first_script.py`) are
clients of `disq`: the `RollingCounter` data structure itself is not among
the repository's files, so it is modelled here from the specification's
words (time instants and durations are milliseconds, represented as `Nat`;
the constructor's argument is an `Int` so that an invalid negative duration
can be passed). The loops of the two scripts are embedded directly.
-/

/-- Modelled from the spec: an `Event` is one recorded occurrence,
`(key, timestamp)`, immutable once recorded. -/
structure Event (K : Type) where
  key : K
  timestamp : Nat
deriving DecidableEq, Repr

/-- Modelled from the spec: the error signalled at construction when the
ttl is invalid (e.g. negative). -/
inductive CounterError where
  | invalidConfiguration
deriving DecidableEq, Repr

/-- Modelled from the spec: a `RollingCounter` owns an ordered sequence of
events (record order, earliest first) and a fixed non-negative ttl; the
`disq.rolling_counter.RollingCounter` used by `src/counting_profiler.py`
is not part of the repository's files. -/
structure RollingCounter (K : Type) where
  ttl : Nat
  events : List (Event K)
deriving DecidableEq, Repr

/-- Modelled from the spec: an event is live (not expired) at instant `now`
exactly when `timestamp + ttl > now`. -/
def Event.isLive {K : Type} (e : Event K) (ttl now : Nat) : Bool :=
  decide (now < e.timestamp + ttl)

namespace RollingCounter

variable {K : Type} [DecidableEq K]

/-- Modelled from the spec: `new(ttl)` fails only on an invalid (negative)
ttl, signalling `InvalidConfiguration`; otherwise it returns an empty
counter with that ttl. -/
def new (ttl : Int) : Except CounterError (RollingCounter K) :=
  if ttl < 0 then Except.error CounterError.invalidConfiguration
  else Except.ok { ttl := ttl.toNat, events := [] }

/-- Modelled from the spec: `add(key)` records one occurrence of `key` at
the current instant; no failure conditions. -/
def add (rc : RollingCounter K) (k : K) (now : Nat) : RollingCounter K :=
  { ttl := rc.ttl, events := rc.events ++ [{ key := k, timestamp := now }] }

/-- Modelled from the spec: `count(key)` returns the number of non-expired
occurrences of `key` as of the call instant (lazy expiry: expired events
are ignored); 0 for an unknown key. -/
def count (rc : RollingCounter K) (k : K) (now : Nat) : Nat :=
  (rc.events.filter (fun e => decide (e.key = k) && e.isLive rc.ttl now)).length

/-- Modelled from the spec: `sweep()` proactively drops expired events;
live events are kept in record order. -/
def sweep (rc : RollingCounter K) (now : Nat) : RollingCounter K :=
  { ttl := rc.ttl, events := rc.events.filter (fun e => e.isLive rc.ttl now) }

/-- Index of the first occurrence of `k` in `l` (length of `l` when `k`
does not occur): used to state the earliest-first-recorded tie-break. -/
def firstIdx (k : K) : List K → Nat
  | [] => 0
  | a :: l => if a = k then 0 else firstIdx k l + 1

/-- Position of the first recorded event with key `k` in record order. -/
def firstRecorded (rc : RollingCounter K) (k : K) : Nat :=
  firstIdx k (rc.events.map Event.key)

/-- Scan of a key list, keeping the best score and, on ties, the earlier
key: the helper realising the spec's max query. -/
def pickMax (f : K → Nat) : List K → Option (K × Nat)
  | [] => none
  | k :: ks =>
    match pickMax f ks with
    | none => some (k, f k)
    | some (bk, bc) => if bc ≤ f k then some (k, f k) else some (bk, bc)

/-- Modelled from the spec: `max()` returns the key with the highest live
count, ties broken by earliest-first-recorded key, and `none` when no
non-expired events remain. -/
def max (rc : RollingCounter K) (now : Nat) : Option (K × Nat) :=
  match pickMax (fun k => rc.count k now) (rc.events.map Event.key) with
  | none => none
  | some (k, c) => if c = 0 then none else some (k, c)

/-- First-seen-order deduplication (keys already seen are dropped). -/
def dedupFirst (seen : List K) : List K → List K
  | [] => []
  | a :: l => if a ∈ seen then dedupFirst seen l else a :: dedupFirst (a :: seen) l

/-- Modelled from the spec: `keys()` lists the keys with at least one
non-expired event, in first-seen order. -/
def keys (rc : RollingCounter K) (now : Nat) : List K :=
  dedupFirst [] (((rc.sweep now).events).map Event.key)

/-- Folding `add` over a list of timestamps with one fixed key. -/
def addAll (rc : RollingCounter K) (k : K) (ts : List Nat) : RollingCounter K :=
  ts.foldl (fun r t => r.add k t) rc

/-- Modelled from the spec: the `count` read as a state-passing operation;
reads may perform internal sweep bookkeeping, which must not change
observable counts. -/
def countOp (rc : RollingCounter K) (k : K) (now : Nat) : RollingCounter K × Nat :=
  (rc.sweep now, rc.count k now)

/-- Modelled from the spec: the `max` read as a state-passing operation
(no mutation from reads). -/
def maxOp (rc : RollingCounter K) (now : Nat) : RollingCounter K × Option (K × Nat) :=
  (rc, rc.max now)

end RollingCounter

/-- Digit keys `'1'..'9','0'` of the string `'1234567890'` that
`count_incoming` in `src/counting_profiler.py` cycles through. -/
def profilerDigits : List Char :=
  ['1', '2', '3', '4', '5', '6', '7', '8', '9', '0']

/-- Keys passed to `rc.add` by the loop
`for i, _ in izip(cycle('1234567890'), xrange(10000)): rc.add(i)` of
`src/counting_profiler.py`: the cyclic digit sequence truncated at
10000 iterations. -/
def burstKeys : List Char :=
  (List.range 10000).map (fun n => profilerDigits.getD (n % 10) '0')

/-- Counter built by the spec's end-to-end scenario: ttl 100 ms, the ten
digit keys added once each at t = 0. -/
def scenarioCounter : RollingCounter Char :=
  profilerDigits.foldl (fun r c => r.add c 0) { ttl := 100, events := [] }

/-- Observable actions of `read_jobs` in `src/first_script.py`: each
`getjob` call with its reply, and each `ackjob` call. -/
inductive JobEv (J : Type) where
  | get (r : Option J)
  | ack (j : J)
deriving DecidableEq, Repr

/-- Embedding of the `read_jobs` loop of `src/first_script.py`: given the
successive replies of `client.getjob('q', timeout_ms=1)`, the trace of
calls the loop makes. On a `None` reply the loop breaks right after that
`getjob`; otherwise it calls `ackjob(job[1])` and loops. -/
def readTrace {J : Type} : List (Option J) → List (JobEv J)
  | [] => []
  | none :: _ => [JobEv.get none]
  | some j :: rest => JobEv.get (some j) :: JobEv.ack j :: readTrace rest

/-- One `getjob`/`ackjob` pair per received job: the shape the trace of
`read_jobs` is proved to take on the jobs received before the first
`None` reply. -/
def ackPairs {J : Type} : List J → List (JobEv J)
  | [] => []
  | j :: js => JobEv.get (some j) :: JobEv.ack j :: ackPairs js

namespace RollingCounter

variable {K : Type} [DecidableEq K]

theorem count_add (rc : RollingCounter K) (k k' : K) (t t' : Nat) :
    (rc.add k t).count k' t' =
      rc.count k' t' + (if k = k' ∧ t' < t + rc.ttl then 1 else 0) := by
  simp only [add, count, List.filter_append, List.length_append]
  congr 1
  by_cases h1 : k = k' <;> by_cases h2 : t' < t + rc.ttl <;>
    simp [List.filter, Event.isLive, h1, h2]

theorem sweep_count (rc : RollingCounter K) (k : K) (now : Nat) :
    (rc.sweep now).count k now = rc.count k now := by
  simp only [sweep, count, List.filter_filter]
  congr 1
  apply List.filter_congr
  intro e _
  cases hk : decide (e.key = k) <;> cases hl : e.isLive rc.ttl now <;> simp [hk, hl]

theorem count_eq_zero_of_not_mem (rc : RollingCounter K) (k : K) (now : Nat)
    (h : k ∉ rc.events.map Event.key) : rc.count k now = 0 := by
  simp only [count, List.length_eq_zero]
  apply List.filter_eq_nil_iff.mpr
  intro e he
  have : e.key ≠ k := fun hk => h (hk ▸ List.mem_map_of_mem Event.key he)
  simp [this]

theorem count_eq_zero_of_expired (rc : RollingCounter K) (k : K) (now : Nat)
    (h : ∀ e ∈ rc.events, e.timestamp + rc.ttl ≤ now) : rc.count k now = 0 := by
  simp only [count, List.length_eq_zero]
  apply List.filter_eq_nil_iff.mpr
  intro e he
  have : ¬ now < e.timestamp + rc.ttl := Nat.not_lt.mpr (h e he)
  simp [Event.isLive, this]

theorem count_pos_of_live (rc : RollingCounter K) (e : Event K) (now : Nat)
    (he : e ∈ rc.events) (hl : now < e.timestamp + rc.ttl) :
    0 < rc.count e.key now := by
  have hm : e ∈ rc.events.filter (fun x => decide (x.key = e.key) && x.isLive rc.ttl now) := by
    simp [List.mem_filter, he, Event.isLive, hl]
  exact List.length_pos.mpr (List.ne_nil_of_mem hm)

theorem pickMax_eq_none (f : K → Nat) (l : List K) : pickMax f l = none ↔ l = [] := by
  cases l with
  | nil => simp [pickMax]
  | cons k ks =>
    cases h : pickMax f ks with
    | none => simp [pickMax, h]
    | some p =>
      obtain ⟨bk, bc⟩ := p
      by_cases hle : bc ≤ f k <;> simp [pickMax, h, hle]

theorem pickMax_some (f : K → Nat) (l : List K) (k : K) (c : Nat)
    (h : pickMax f l = some (k, c)) : k ∈ l ∧ c = f k := by
  induction l generalizing k c with
  | nil => simp [pickMax] at h
  | cons a l ih =>
    cases hl : pickMax f l with
    | none =>
      simp only [pickMax, hl] at h
      obtain ⟨rfl, rfl⟩ := Prod.mk.injEq .. ▸ Option.some.inj h
      exact ⟨List.mem_cons_self a l, rfl⟩
    | some p =>
      obtain ⟨bk, bc⟩ := p
      simp only [pickMax, hl] at h
      split_ifs at h with hle
      · obtain ⟨rfl, rfl⟩ := Prod.mk.injEq .. ▸ Option.some.inj h
        exact ⟨List.mem_cons_self a l, rfl⟩
      · obtain ⟨rfl, rfl⟩ := Prod.mk.injEq .. ▸ Option.some.inj h
        obtain ⟨hmem, hval⟩ := ih _ _ hl
        exact ⟨List.mem_cons_of_mem a hmem, hval⟩

theorem pickMax_le (f : K → Nat) (l : List K) (k : K) (c : Nat)
    (h : pickMax f l = some (k, c)) : ∀ x ∈ l, f x ≤ c := by
  induction l generalizing k c with
  | nil => simp [pickMax] at h
  | cons a l ih =>
    cases hl : pickMax f l with
    | none =>
      have : l = [] := (pickMax_eq_none f l).mp hl
      subst this
      simp only [pickMax, hl] at h
      obtain ⟨rfl, rfl⟩ := Prod.mk.injEq .. ▸ Option.some.inj h
      simp
    | some p =>
      obtain ⟨bk, bc⟩ := p
      simp only [pickMax, hl] at h
      intro x hx
      rcases List.mem_cons.mp hx with rfl | hx
      · split_ifs at h with hle
        · obtain ⟨rfl, rfl⟩ := Prod.mk.injEq .. ▸ Option.some.inj h
          exact Nat.le_refl _
        · obtain ⟨rfl, rfl⟩ := Prod.mk.injEq .. ▸ Option.some.inj h
          exact Nat.le_of_not_le hle
      · split_ifs at h with hle
        · obtain ⟨rfl, rfl⟩ := Prod.mk.injEq .. ▸ Option.some.inj h
          exact Nat.le_trans (ih _ _ hl x hx) hle
        · obtain ⟨rfl, rfl⟩ := Prod.mk.injEq .. ▸ Option.some.inj h
          exact ih _ _ hl x hx

theorem pickMax_tie (f : K → Nat) (l : List K) (k : K) (c : Nat)
    (h : pickMax f l = some (k, c)) :
    ∀ x ∈ l, f x = c → firstIdx k l ≤ firstIdx x l := by
  induction l generalizing k c with
  | nil => simp [pickMax] at h
  | cons a l ih =>
    cases hl : pickMax f l with
    | none =>
      simp only [pickMax, hl] at h
      obtain ⟨rfl, rfl⟩ := Prod.mk.injEq .. ▸ Option.some.inj h
      intro x _ _
      simp [firstIdx]
    | some p =>
      obtain ⟨bk, bc⟩ := p
      simp only [pickMax, hl] at h
      split_ifs at h with hle
      · obtain ⟨rfl, rfl⟩ := Prod.mk.injEq .. ▸ Option.some.inj h
        intro x _ _
        simp [firstIdx]
      · obtain ⟨rfl, rfl⟩ := Prod.mk.injEq .. ▸ Option.some.inj h
        have hbk := pickMax_some f l _ _ hl
        have hak : a ≠ bk := by
          intro hak
          exact hle (Nat.le_of_eq (hbk.2.trans (congrArg f hak).symm))
        intro x hx hfx
        rcases List.mem_cons.mp hx with rfl | hx
        · exact absurd (hfx ▸ Nat.lt_of_not_le hle) (Nat.lt_irrefl _)
        · have hax : a ≠ x := by
            intro hax
            exact hle (Nat.le_of_eq (((congrArg f hax).trans hfx).symm))
          simp only [firstIdx, if_neg hak, if_neg hax]
          exact Nat.succ_le_succ (ih _ _ hl x hx hfx)

theorem max_eq_none_iff (rc : RollingCounter K) (now : Nat) :
    rc.max now = none ↔ ∀ e ∈ rc.events, e.timestamp + rc.ttl ≤ now := by
  unfold max
  cases hp : pickMax (fun k => rc.count k now) (rc.events.map Event.key) with
  | none =>
    have : rc.events = [] := List.map_eq_nil_iff.mp ((pickMax_eq_none _ _).mp hp)
    simp [this]
  | some p =>
    obtain ⟨k, c⟩ := p
    have hks := pickMax_some _ _ _ _ hp
    by_cases hc : c = 0
    · simp only [hc, if_pos rfl]
      constructor
      · intro _ e he
        by_contra hlt
        have h1 : 0 < rc.count e.key now :=
          count_pos_of_live rc e now he (Nat.lt_of_not_le (fun hle => hlt hle))
        have h2 : rc.count e.key now ≤ c :=
          pickMax_le _ _ _ _ hp e.key (List.mem_map_of_mem Event.key he)
        exact absurd (Nat.lt_of_lt_of_le h1 h2) (hc ▸ Nat.lt_irrefl 0)
      · intro _
        rfl
    · simp only [if_neg hc]
      constructor
      · intro habs
        exact absurd habs (by simp)
      · intro hall
        have : c = 0 := hks.2.trans (count_eq_zero_of_expired rc k now hall)
        exact absurd this hc

theorem max_some_spec (rc : RollingCounter K) (now : Nat) (k : K) (c : Nat)
    (h : rc.max now = some (k, c)) :
    c = rc.count k now ∧ 0 < c ∧ (∀ x, rc.count x now ≤ c) ∧
      ∀ x, rc.count x now = c → rc.firstRecorded k ≤ rc.firstRecorded x := by
  unfold max at h
  cases hp : pickMax (fun y => rc.count y now) (rc.events.map Event.key) with
  | none => rw [hp] at h; exact absurd h (by simp)
  | some p =>
    obtain ⟨k', c'⟩ := p
    rw [hp] at h
    dsimp only at h
    by_cases hc : c' = 0
    · rw [if_pos hc] at h
      exact absurd h (by simp)
    · rw [if_neg hc] at h
      obtain ⟨rfl, rfl⟩ := Prod.mk.injEq .. ▸ Option.some.inj h
      have hks := pickMax_some _ _ _ _ hp
      refine ⟨hks.2, Nat.pos_of_ne_zero hc, ?_, ?_⟩
      · intro x
        by_cases hx : x ∈ rc.events.map Event.key
        · exact pickMax_le _ _ _ _ hp x hx
        · rw [count_eq_zero_of_not_mem rc x now hx]
          exact Nat.zero_le _
      · intro x hxc
        have hx : x ∈ rc.events.map Event.key := by
          by_contra hx
          rw [count_eq_zero_of_not_mem rc x now hx] at hxc
          exact hc hxc.symm
        exact pickMax_tie _ _ _ _ hp x hx hxc

theorem mem_of_mem_dedupFirst (seen l : List K) (a : K) (h : a ∈ dedupFirst seen l) :
    a ∈ l := by
  induction l generalizing seen with
  | nil => simp [dedupFirst] at h
  | cons b l ih =>
    by_cases hb : b ∈ seen
    · simp only [dedupFirst, if_pos hb] at h
      exact List.mem_cons_of_mem _ (ih _ h)
    · simp only [dedupFirst, if_neg hb] at h
      rcases List.mem_cons.mp h with rfl | h
      · exact List.mem_cons_self _ _
      · exact List.mem_cons_of_mem _ (ih _ h)

theorem not_mem_keys_of_not_mem (rc : RollingCounter K) (k : K) (now : Nat)
    (h : k ∉ rc.events.map Event.key) : k ∉ rc.keys now := by
  intro hk
  apply h
  have h1 := mem_of_mem_dedupFirst _ _ _ hk
  obtain ⟨e, he, rfl⟩ := List.mem_map.mp h1
  exact List.mem_map_of_mem Event.key (List.mem_of_mem_filter he)

end RollingCounter

/-- C1: for every RollingCounter and key `k`, at any observation instant
`count(k)` equals the number of recorded events with key `k` whose
timestamp is not yet expired (`timestamp + ttl > now`), and expired events
(`timestamp + ttl <= now`) are excluded from the counted collection. -/
theorem count_eq_live_occurrences {K : Type} [DecidableEq K]
    (rc : RollingCounter K) (k : K) (now : Nat) :
    rc.count k now =
      rc.events.countP (fun e => decide (e.key = k ∧ e.timestamp + rc.ttl > now)) ∧
    ∀ e ∈ rc.events, e.timestamp + rc.ttl ≤ now →
      e ∉ rc.events.filter (fun e => decide (e.key = k) && e.isLive rc.ttl now) := by
  constructor
  · rw [List.countP_eq_length_filter]
    unfold RollingCounter.count
    congr 1
    apply List.filter_congr
    intro e _
    simp [Event.isLive, gt_iff_lt]
  · intro e he hexp hmem
    have hl := (List.mem_filter.mp hmem).2
    simp [Event.isLive] at hl
    omega

/-- C2: an event with key `k` added at time `t` to a counter with ttl `T`
is included in `count(k)` at every instant `t' < t + T` and excluded at
every instant `t' >= t + T`. -/
theorem add_count_window {K : Type} [DecidableEq K]
    (rc : RollingCounter K) (k : K) (t t' : Nat) :
    (rc.add k t).count k t' =
      rc.count k t' + (if t' < t + rc.ttl then 1 else 0) := by
  rw [RollingCounter.count_add]
  congr 1
  by_cases h : t' < t + rc.ttl <;> simp [h]

/-- C3: `max()` returns none iff every recorded event has expired at the
call instant; otherwise it returns a key with the highest live count and
that count, tie-broken by the earliest-first-recorded key. -/
theorem max_drain_and_argmax {K : Type} [DecidableEq K]
    (rc : RollingCounter K) (now : Nat) :
    (rc.max now = none ↔ ∀ e ∈ rc.events, e.timestamp + rc.ttl ≤ now) ∧
    ∀ k c, rc.max now = some (k, c) →
      c = rc.count k now ∧ 0 < c ∧ (∀ x, rc.count x now ≤ c) ∧
        ∀ x, rc.count x now = c → rc.firstRecorded k ≤ rc.firstRecorded x :=
  ⟨RollingCounter.max_eq_none_iff rc now,
    fun k c h => RollingCounter.max_some_spec rc now k c h⟩

/-- C4: construction succeeds exactly on a non-negative ttl and fails with
`InvalidConfiguration` exactly on a negative one; the other operations are
total Lean functions, and an unknown key yields 0 from `count` and is
absent from `keys`. -/
theorem construction_and_totality {K : Type} [DecidableEq K]
    (t : Int) (rc : RollingCounter K) (k : K) (now : Nat) :
    ((0 : Int) ≤ t ↔
      RollingCounter.new (K := K) t = Except.ok { ttl := t.toNat, events := [] }) ∧
    (t < 0 ↔
      RollingCounter.new (K := K) t = Except.error CounterError.invalidConfiguration) ∧
    (k ∉ rc.events.map Event.key → rc.count k now = 0 ∧ k ∉ rc.keys now) := by
  refine ⟨⟨?_, ?_⟩, ⟨?_, ?_⟩, ?_⟩
  · intro h
    rw [RollingCounter.new, if_neg (Int.not_lt.mpr h)]
  · intro h
    by_contra h0
    rw [RollingCounter.new, if_pos (Int.not_le.mp h0)] at h
    exact absurd h (by simp)
  · intro h
    rw [RollingCounter.new, if_pos h]
  · intro h
    by_contra h0
    rw [RollingCounter.new, if_neg h0] at h
    exact absurd h (by simp)
  · intro h
    exact ⟨RollingCounter.count_eq_zero_of_not_mem rc k now h,
      RollingCounter.not_mem_keys_of_not_mem rc k now h⟩

/-- C5: with ttl = 0 every event expires immediately after recording: an
added event never changes any count at or after its record time, and on a
counter fresh from `new(0)` an `add(x)` immediately followed by `count(x)`
returns 0. -/
theorem ttl_zero_expires_immediately {K : Type} [DecidableEq K]
    (rc : RollingCounter K) (x : K) (t t' : Nat)
    (h : rc.ttl = 0) (ht : t ≤ t') :
    (rc.add x t).count x t' = rc.count x t' ∧
    (({ ttl := 0, events := [] } : RollingCounter K).add x t).count x t = 0 := by
  constructor
  · rw [RollingCounter.count_add]
    have hno : ¬ (x = x ∧ t' < t + rc.ttl) := by
      rintro ⟨_, hlt⟩
      rw [h] at hlt
      omega
    rw [if_neg hno, Nat.add_zero]
  · simp [RollingCounter.add, RollingCounter.count, Event.isLive, List.filter]

/-- Witness for C5: ttl 0, key 'x' added at t = 5 and counted at t = 5. -/
theorem ttl_zero_expires_immediately_witness :
    ({ ttl := 0, events := [] } : RollingCounter Char).ttl = 0 ∧ (5 : Nat) ≤ 5 ∧
    ((({ ttl := 0, events := [] } : RollingCounter Char).add 'x' 5).count 'x' 5 =
        ({ ttl := 0, events := [] } : RollingCounter Char).count 'x' 5 ∧
      (({ ttl := 0, events := [] } : RollingCounter Char).add 'x' 5).count 'x' 5 = 0) :=
  ⟨rfl, Nat.le_refl 5,
    ttl_zero_expires_immediately { ttl := 0, events := [] } 'x' 5 5 rfl (Nat.le_refl 5)⟩

/-- C6: adding events with one key in rapid succession, all unexpired at
the query instant, raises `count` by exactly their number. -/
theorem rapid_adds_count {K : Type} [DecidableEq K]
    (rc : RollingCounter K) (k : K) (ts : List Nat) (q : Nat)
    (h : ∀ t ∈ ts, q < t + rc.ttl) :
    (rc.addAll k ts).count k q = rc.count k q + ts.length := by
  induction ts generalizing rc with
  | nil => simp [RollingCounter.addAll]
  | cons t ts ih =>
    have hstep : (rc.add k t).count k q = rc.count k q + 1 := by
      rw [RollingCounter.count_add, if_pos ⟨rfl, h t (List.mem_cons_self t ts)⟩]
    have hrest : ∀ t' ∈ ts, q < t' + (rc.add k t).ttl :=
      fun t' ht' => h t' (List.mem_cons_of_mem t ht')
    have hih := ih (rc.add k t) hrest
    simp only [RollingCounter.addAll, List.foldl_cons] at hih ⊢
    rw [hih, hstep, List.length_cons]
    omega

/-- Witness for C6: three adds of key 'a' at times 0, 1, 2 with ttl 100,
counted at t = 3. -/
theorem rapid_adds_count_witness :
    (∀ t ∈ ([0, 1, 2] : List Nat),
      (3 : Nat) < t + ({ ttl := 100, events := [] } : RollingCounter Char).ttl) ∧
    (({ ttl := 100, events := [] } : RollingCounter Char).addAll 'a' [0, 1, 2]).count 'a' 3 =
      ({ ttl := 100, events := [] } : RollingCounter Char).count 'a' 3 +
        ([0, 1, 2] : List Nat).length :=
  ⟨by decide, rapid_adds_count { ttl := 100, events := [] } 'a' [0, 1, 2] 3 (by decide)⟩

/-- C7: queries are observably pure: repeating `count` or `max` at one
instant with no intervening `add` returns identical results (including
across the optional internal sweep bookkeeping of a read), and on equal
live counts `max` deterministically prefers the first-recorded key. -/
theorem queries_idempotent {K : Type} [DecidableEq K]
    (rc : RollingCounter K) (k : K) (now : Nat) :
    (RollingCounter.countOp (RollingCounter.countOp rc k now).1 k now).2 =
      (RollingCounter.countOp rc k now).2 ∧
    (RollingCounter.maxOp (RollingCounter.maxOp rc now).1 now).2 =
      (RollingCounter.maxOp rc now).2 ∧
    ∀ k1 k2 c, rc.max now = some (k1, c) → rc.count k2 now = c →
      rc.firstRecorded k1 ≤ rc.firstRecorded k2 := by
  refine ⟨RollingCounter.sweep_count rc k now, rfl, ?_⟩
  intro k1 k2 c h hc
  exact (RollingCounter.max_some_spec rc now k1 c h).2.2.2 k2 hc

/-- C8: end-to-end scenario with ttl = 100 ms: after adding keys
'1'..'9','0' once each at t = 0 (10 events), `max()` at t = 0 returns the
first-seen key '1' with count 1, and `max()` at t = 150 ms returns none. -/
theorem scenario_ttl_100ms :
    RollingCounter.new 100 = Except.ok ({ ttl := 100, events := [] } : RollingCounter Char) ∧
    scenarioCounter.events.length = 10 ∧
    scenarioCounter.max 0 = some ('1', 1) ∧
    scenarioCounter.max 150 = none :=
  ⟨rfl, rfl, by decide, by decide⟩

theorem countP_mod_range_ten (j : Nat) (hj : j < 10) :
    List.countP (fun n => decide (n % 10 = j)) (List.range 10) = 1 := by
  interval_cases j <;> decide

theorem countP_mod_range (j : Nat) (hj : j < 10) (m : Nat) :
    List.countP (fun n => decide (n % 10 = j)) (List.range (10 * m)) = m := by
  induction m with
  | zero => simp
  | succ m ih =>
    have h10 : 10 * (m + 1) = 10 * m + 10 := by ring
    rw [h10, List.range_add, List.countP_append, ih, List.countP_map]
    have hcong :
        List.countP ((fun n => decide (n % 10 = j)) ∘ (fun x => 10 * m + x))
            (List.range 10) =
          List.countP (fun n => decide (n % 10 = j)) (List.range 10) := by
      apply List.countP_congr
      intro a _
      simp [Function.comp, Nat.mul_add_mod]
    rw [hcong, countP_mod_range_ten j hj]

theorem burstKeys_count_digit (j : Nat) (hj : j < 10) :
    burstKeys.count (profilerDigits.getD j '0') = 1000 := by
  unfold burstKeys
  rw [List.count_eq_countP, List.countP_map]
  have hcong :
      List.countP ((fun c => c == profilerDigits.getD j '0') ∘
          (fun n => profilerDigits.getD (n % 10) '0')) (List.range 10000) =
        List.countP (fun n => decide (n % 10 = j)) (List.range 10000) := by
    apply List.countP_congr
    intro n _
    have hn : n % 10 < 10 := Nat.mod_lt n (by omega)
    revert hn
    simp only [Function.comp]
    generalize n % 10 = r
    intro hn
    interval_cases j <;> interval_cases r <;> decide
  rw [hcong, show (10000 : Nat) = 10 * 1000 from by norm_num,
    countP_mod_range j hj 1000]

/-- C9: the profiler loop of `count_incoming` issues exactly 10000 `add`
calls before the first `max()` poll, the key of iteration `i` being digit
`i % 10` of the cycle '1'..'9','0', so each of the ten digit keys is added
exactly 1000 times. -/
theorem burst_adds_distribution :
    burstKeys.length = 10000 ∧
    (∀ i, i < 10000 → burstKeys.getD i '0' = profilerDigits.getD (i % 10) '0') ∧
    ∀ c ∈ profilerDigits, burstKeys.count c = 1000 := by
  refine ⟨by simp [burstKeys], ?_, ?_⟩
  · intro i hi
    unfold burstKeys
    rw [List.getD_eq_getElem?_getD, List.getElem?_map, List.getElem?_range hi]
    rfl
  · intro c hc
    simp only [profilerDigits, List.mem_cons, List.not_mem_nil, or_false] at hc
    rcases hc with rfl | rfl | rfl | rfl | rfl | rfl | rfl | rfl | rfl | rfl
    · exact burstKeys_count_digit 0 (by omega)
    · exact burstKeys_count_digit 1 (by omega)
    · exact burstKeys_count_digit 2 (by omega)
    · exact burstKeys_count_digit 3 (by omega)
    · exact burstKeys_count_digit 4 (by omega)
    · exact burstKeys_count_digit 5 (by omega)
    · exact burstKeys_count_digit 6 (by omega)
    · exact burstKeys_count_digit 7 (by omega)
    · exact burstKeys_count_digit 8 (by omega)
    · exact burstKeys_count_digit 9 (by omega)

/-- C10: `read_jobs` terminates exactly at the first `None` reply of
`getjob`: its trace is one `getjob`/`ackjob` pair per job received before
that reply, followed by the final `getjob` returning `None` — so every
received job is acknowledged exactly once, before the next `getjob`, and
no `None` reply is ever acknowledged. -/
theorem readTrace_spec {J : Type} [DecidableEq J] (l : List (Option J))
    (h : none ∈ l) :
    readTrace l =
      ackPairs ((l.takeWhile Option.isSome).filterMap id) ++ [JobEv.get none] ∧
    ∀ j : J, (readTrace l).count (JobEv.ack j) =
      (l.takeWhile Option.isSome).count (some j) := by
  induction l with
  | nil => simp at h
  | cons a rest ih =>
    cases a with
    | none =>
      constructor
      · simp [readTrace, List.takeWhile, ackPairs]
      · intro j
        simp [readTrace, List.takeWhile, List.count_cons, List.count_nil]
    | some x =>
      have h' : none ∈ rest := by
        rcases List.mem_cons.mp h with h0 | h0
        · exact absurd h0 (by simp)
        · exact h0
      obtain ⟨ih1, ih2⟩ := ih h'
      constructor
      · simp [readTrace, List.takeWhile, ackPairs, ih1]
      · intro j
        have hx := ih2 j
        by_cases hxj : x = j <;>
          simp [readTrace, List.takeWhile, List.count_cons, hx, hxj]

/-- Witness for C10: replies `some 1, some 2, none`. -/
theorem readTrace_spec_witness :
    (none ∈ ([some 1, some 2, none] : List (Option Nat))) ∧
    (readTrace ([some 1, some 2, none] : List (Option Nat)) =
        ackPairs ((([some 1, some 2, none] : List (Option Nat)).takeWhile
          Option.isSome).filterMap id) ++ [JobEv.get none] ∧
      ∀ j : Nat,
        (readTrace ([some 1, some 2, none] : List (Option Nat))).count (JobEv.ack j) =
          (([some 1, some 2, none] : List (Option Nat)).takeWhile
            Option.isSome).count (some j)) :=
  ⟨by decide, readTrace_spec [some 1, some 2, none] (by decide)⟩
